import Mathlib

set_option maxRecDepth 100000

/-!
# Verification of the stablecoin-trackoor incremental polling pipeline

Shallow embedding of the pure core of `stablecoin_tracker.py`,
`whale_tracker.py` and `main.py`: the large-transfer filter, the whale
registry update (`update_whale_data`), the snapshot export
(`export_whale_summary_to_csv`), the supply fetch
(`get_supply_from_defillama`), the ERC20 value decode and threshold
classification (`WhaleTracker._process_transaction`) and the per-chain
block cursor of `WhaleTracker.check_whale_transactions`.

Modelling conventions:
* Python float amounts are modelled as exact rationals (`ℚ`); every
  amount handled by the source is an integer divided by a power of ten.
* Python dicts keyed by address are modelled as functions
  `String → Option WhaleRecord`; in-place mutation becomes functional
  update, preserving the source's aliasing behaviour (sender and
  receiver of a self-transfer share one record).
* Python `set()` values (the `chains` / `tokens` fields, which the
  source converts to lists in unspecified iteration order) are modelled
  as `Finset String`.
* Timestamps are kept as the raw unix integers; the source formats them
  with `strftime`, which is irrelevant to every property proved here.
* HTTP fetches are out of scope: each function takes the fetched data
  (or `Option.none` for a failed fetch) as an argument.
-/

/-- Python's slice `lst[-k:]`.  For `k ≥ 1` it keeps the last `k`
elements (all of them when `k ≥ len(lst)`); for `k = 0` Python evaluates
`lst[-0:] = lst[0:]`, i.e. the whole list. -/
def pyLastSlice (k : Nat) (l : List α) : List α :=
  if k = 0 then l else l.drop (l.length - k)

theorem pyLastSlice_zero (l : List α) : pyLastSlice 0 l = l := rfl

theorem pyLastSlice_eq_take_reverse (k : Nat) (hk : k ≠ 0) (l : List α) :
    pyLastSlice k l = (l.reverse.take k).reverse := by
  unfold pyLastSlice
  rw [if_neg hk, List.take_reverse, List.reverse_reverse]

theorem pyLastSlice_length_le (k : Nat) (hk : 1 ≤ k) (l : List α) :
    (pyLastSlice k l).length ≤ k := by
  rw [pyLastSlice_eq_take_reverse k (by omega) l, List.length_reverse]
  exact List.length_take_le k l.reverse

/-- The slice is a suffix: what is dropped is exactly the oldest prefix. -/
theorem pyLastSlice_suffix (k : Nat) (l : List α) :
    l.take (l.length - k) ++ pyLastSlice k l = l ∨ pyLastSlice k l = l := by
  by_cases hk : k = 0
  · right; rw [hk, pyLastSlice_zero]
  · left
    unfold pyLastSlice
    rw [if_neg hk, List.take_append_drop]

theorem pyLastSlice_append (k : Nat) (x y : List α) :
    pyLastSlice k (pyLastSlice k x ++ y) = pyLastSlice k (x ++ y) := by
  by_cases hk : k = 0
  · rw [hk, pyLastSlice_zero, pyLastSlice_zero, pyLastSlice_zero]
  · rw [pyLastSlice_eq_take_reverse k hk, pyLastSlice_eq_take_reverse k hk,
      pyLastSlice_eq_take_reverse k hk, List.reverse_append, List.reverse_reverse,
      List.reverse_append]
    congr 1
    rw [List.take_append_eq_append_take, List.take_append_eq_append_take, List.take_take,
      Nat.min_eq_left (Nat.sub_le _ _)]

theorem pyLastSlice_idem (k : Nat) (l : List α) :
    pyLastSlice k (pyLastSlice k l) = pyLastSlice k l := by
  have := pyLastSlice_append k l []
  simpa using this

theorem head?_take_of_ne_zero (k : Nat) (hk : k ≠ 0) (l : List α) :
    (l.take k).head? = l.head? := by
  cases l with
  | nil => simp
  | cons a t =>
      cases k with
      | zero => exact absurd rfl hk
      | succ n => simp

theorem pyLastSlice_getLast? (k : Nat) (l : List α) :
    (pyLastSlice k l).getLast? = l.getLast? := by
  by_cases hk : k = 0
  · rw [hk, pyLastSlice_zero]
  · rw [pyLastSlice_eq_take_reverse k hk l, List.getLast?_reverse,
      head?_take_of_ne_zero k hk, List.head?_reverse]

/-! ## The whale registry (`stablecoin_tracker.py`, `update_whale_data`) -/

/-- One element of a `WhaleRecord`'s `transactions` list, as appended by
`update_whale_data` (the `type`/`token`/`chain`/`amount`/`timestamp`/
`tx_hash` dict). -/
structure TxEntry where
  entryType : String
  token : String
  chain : String
  amount : ℚ
  timestamp : Nat
  txHash : String
deriving DecidableEq

/-- A value of the address-keyed whale dict: `total_transactions`,
`chains`, `tokens`, `last_active` (`none` models the initial `''`),
`transactions`. -/
structure WhaleRecord where
  total_transactions : Nat
  chains : Finset String
  tokens : Finset String
  last_active : Option Nat
  transactions : List TxEntry
deriving DecidableEq

/-- A record of the explorer `tokentx` endpoint as consumed by
`get_large_transactions` / `update_whale_data`.  The API serialises
`value`, `tokenDecimal` and `timeStamp` as decimal strings which the
source parses with `float()` / `int()`; they are kept as numbers here. -/
structure TokenTx where
  fromAddr : String
  toAddr : String
  value : Nat
  tokenDecimal : Nat
  timeStamp : Nat
  hash : String
deriving DecidableEq

/-- `float(tx['value']) / (10 ** int(tx['tokenDecimal']))`. -/
def tokenTxAmount (tx : TokenTx) : ℚ :=
  (tx.value : ℚ) / 10 ^ tx.tokenDecimal

/-- The whale registry: the JSON dict of `whale_addresses.json`. -/
def Reg : Type := String → Option WhaleRecord

/-- The fresh record inserted for a first-seen address. -/
def emptyRecord : WhaleRecord :=
  { total_transactions := 0, chains := ∅, tokens := ∅,
    last_active := none, transactions := [] }

/-- `if addr not in whale_data: whale_data[addr] = {...}`. -/
def ensureRecord (addr : String) (w : Reg) : Reg :=
  fun x => if x = addr then some ((w x).getD emptyRecord) else w x

/-- In-place mutation of the record at `addr`. -/
def mapAt (addr : String) (f : WhaleRecord → WhaleRecord) (w : Reg) : Reg :=
  fun x => if x = addr then (w x).map f else w x

/-- The `'send'` entry appended to the sender's list. -/
def sendEntry (tx : TokenTx) (chain token : String) : TxEntry :=
  { entryType := "send", token := token, chain := chain,
    amount := tokenTxAmount tx, timestamp := tx.timeStamp, txHash := tx.hash }

/-- The `'receive'` entry appended to the receiver's list. -/
def recvEntry (tx : TokenTx) (chain token : String) : TxEntry :=
  { entryType := "receive", token := token, chain := chain,
    amount := tokenTxAmount tx, timestamp := tx.timeStamp, txHash := tx.hash }

/-- The per-record stat update shared by sender and receiver: bump
`total_transactions`, union in the chain and token, set `last_active`,
append the entry. -/
def bumpRecord (chain token : String) (ts : Nat) (e : TxEntry)
    (r : WhaleRecord) : WhaleRecord :=
  { total_transactions := r.total_transactions + 1,
    chains := r.chains ∪ {chain},
    tokens := r.tokens ∪ {token},
    last_active := some ts,
    transactions := r.transactions ++ [e] }

/-- `update_whale_data(tx, chain, token_name)` with the configured
`max_transactions_per_address` as `maxTxs`.  Follows the source's
statement order: ensure sender and receiver records exist, update the
sender, update the receiver, then truncate each list with
`lst[-max_txs:]`.  When sender and receiver coincide the two updates hit
the same record, exactly as the aliased dict entry does in Python. -/
def updateWhaleData (maxTxs : Nat) (tx : TokenTx) (chain token : String)
    (w : Reg) : Reg :=
  let w1 := ensureRecord tx.fromAddr w
  let w2 := ensureRecord tx.toAddr w1
  let w3 := mapAt tx.fromAddr (bumpRecord chain token tx.timeStamp (sendEntry tx chain token)) w2
  let w4 := mapAt tx.toAddr (bumpRecord chain token tx.timeStamp (recvEntry tx chain token)) w3
  let w5 := mapAt tx.fromAddr
    (fun r => { r with transactions := pyLastSlice maxTxs r.transactions }) w4
  let w6 := mapAt tx.toAddr
    (fun r => { r with transactions := pyLastSlice maxTxs r.transactions }) w5
  w6

/-- The entries a single `update_whale_data` call appends to address
`a`'s list: a `'send'` entry when `a` is the sender, then a `'receive'`
entry when `a` is the receiver (both, in that order, for a
self-transfer). -/
def txEntriesFor (tx : TokenTx) (chain token : String) (a : String) : List TxEntry :=
  (if tx.fromAddr = a then [sendEntry tx chain token] else []) ++
  (if tx.toAddr = a then [recvEntry tx chain token] else [])

theorem txEntriesFor_eq_nil (tx : TokenTx) (chain token a : String)
    (h : ¬(tx.fromAddr = a ∨ tx.toAddr = a)) :
    txEntriesFor tx chain token a = [] := by
  push_neg at h
  simp [txEntriesFor, h.1, h.2]

theorem txEntriesFor_ne_nil (tx : TokenTx) (chain token a : String)
    (h : tx.fromAddr = a ∨ tx.toAddr = a) :
    txEntriesFor tx chain token a ≠ [] := by
  rcases h with h | h <;> simp [txEntriesFor, h]

/-- Pointwise effect of one `update_whale_data` call. -/
theorem updateWhaleData_apply (k : Nat) (tx : TokenTx) (chain token : String)
    (w : Reg) (a : String) :
    updateWhaleData k tx chain token w a =
      if tx.fromAddr = a ∨ tx.toAddr = a then
        some { total_transactions :=
                 ((w a).getD emptyRecord).total_transactions +
                   (txEntriesFor tx chain token a).length,
               chains := ((w a).getD emptyRecord).chains ∪ {chain},
               tokens := ((w a).getD emptyRecord).tokens ∪ {token},
               last_active := some tx.timeStamp,
               transactions := pyLastSlice k
                 (((w a).getD emptyRecord).transactions ++ txEntriesFor tx chain token a) }
      else w a := by
  by_cases hf : tx.fromAddr = a <;> by_cases ht : tx.toAddr = a
  · have hf' : a = tx.fromAddr := hf.symm
    have ht' : a = tx.toAddr := ht.symm
    simp only [updateWhaleData, mapAt, ensureRecord, if_pos hf', if_pos ht',
      if_pos (Or.inl hf), Option.getD_some, Option.map_some', txEntriesFor,
      if_pos hf, if_pos ht, bumpRecord, Option.some.injEq]
    simp [pyLastSlice_idem, Finset.union_assoc, List.append_assoc]
  · have hf' : a = tx.fromAddr := hf.symm
    have ht' : ¬ (a = tx.toAddr) := fun h => ht h.symm
    simp only [updateWhaleData, mapAt, ensureRecord, if_pos hf', if_neg ht',
      if_pos (Or.inl hf), Option.getD_some, Option.map_some', txEntriesFor,
      if_pos hf, if_neg ht, bumpRecord, Option.some.injEq]
    simp
  · have hf' : ¬ (a = tx.fromAddr) := fun h => hf h.symm
    have ht' : a = tx.toAddr := ht.symm
    simp only [updateWhaleData, mapAt, ensureRecord, if_neg hf', if_pos ht',
      if_pos (Or.inr ht), Option.getD_some, Option.map_some', txEntriesFor,
      if_neg hf, if_pos ht, bumpRecord, Option.some.injEq]
    simp
  · have hf' : ¬ (a = tx.fromAddr) := fun h => hf h.symm
    have ht' : ¬ (a = tx.toAddr) := fun h => ht h.symm
    simp only [updateWhaleData, mapAt, ensureRecord, if_neg hf', if_neg ht']
    rw [if_neg (by push_neg; exact ⟨hf, ht⟩)]

/-! ## Replaying transfer lists (`update_whale_data` iterated) -/

/-- One qualifying transfer as fed to `update_whale_data`: the raw
transaction together with the `chain` and `token_name` arguments. -/
structure TransferEvent where
  tx : TokenTx
  chain : String
  token : String
deriving DecidableEq

/-- Feeding a list of transfers through `update_whale_data` in order. -/
def recordAll (k : Nat) (L : List TransferEvent) (w : Reg) : Reg :=
  L.foldl (fun w e => updateWhaleData k e.tx e.chain e.token w) w

/-- All entries a replay of `L` appends to address `a`'s list. -/
def entriesFor (a : String) : List TransferEvent → List TxEntry
  | [] => []
  | e :: L => txEntriesFor e.tx e.chain e.token a ++ entriesFor a L

/-- The chains a replay of `L` unions into address `a`'s record. -/
def chainsFor (a : String) : List TransferEvent → Finset String
  | [] => ∅
  | e :: L =>
      if e.tx.fromAddr = a ∨ e.tx.toAddr = a then {e.chain} ∪ chainsFor a L
      else chainsFor a L

/-- The tokens a replay of `L` unions into address `a`'s record. -/
def tokensFor (a : String) : List TransferEvent → Finset String
  | [] => ∅
  | e :: L =>
      if e.tx.fromAddr = a ∨ e.tx.toAddr = a then {e.token} ∪ tokensFor a L
      else tokensFor a L

/-- The timestamp of the last transfer in `L` touching address `a`. -/
def lastActiveFor (a : String) : List TransferEvent → Option Nat
  | [] => none
  | e :: L =>
      match lastActiveFor a L with
      | some t => some t
      | none =>
          if e.tx.fromAddr = a ∨ e.tx.toAddr = a then some e.tx.timeStamp else none

theorem chainsFor_of_entriesFor_nil (a : String) (L : List TransferEvent)
    (h : entriesFor a L = []) : chainsFor a L = ∅ := by
  induction L with
  | nil => rfl
  | cons e L ih =>
      simp only [entriesFor, List.append_eq_nil] at h
      have he : ¬ (e.tx.fromAddr = a ∨ e.tx.toAddr = a) := by
        intro hor
        exact txEntriesFor_ne_nil e.tx e.chain e.token a hor h.1
      simp [chainsFor, he, ih h.2]

theorem tokensFor_of_entriesFor_nil (a : String) (L : List TransferEvent)
    (h : entriesFor a L = []) : tokensFor a L = ∅ := by
  induction L with
  | nil => rfl
  | cons e L ih =>
      simp only [entriesFor, List.append_eq_nil] at h
      have he : ¬ (e.tx.fromAddr = a ∨ e.tx.toAddr = a) := by
        intro hor
        exact txEntriesFor_ne_nil e.tx e.chain e.token a hor h.1
      simp [tokensFor, he, ih h.2]

theorem lastActiveFor_eq_none (a : String) (L : List TransferEvent) :
    lastActiveFor a L = none ↔ entriesFor a L = [] := by
  induction L with
  | nil => simp [lastActiveFor, entriesFor]
  | cons e L ih =>
      simp only [entriesFor, List.append_eq_nil, lastActiveFor]
      cases hL : lastActiveFor a L with
      | some t =>
          simp only []
          constructor
          · intro h; exact absurd h (by simp)
          · intro h
            exact absurd (ih.mpr h.2) (by simp [hL])
      | none =>
          simp only []
          by_cases he : e.tx.fromAddr = a ∨ e.tx.toAddr = a
          · rw [if_pos he]
            constructor
            · intro h; exact absurd h (by simp)
            · intro h
              exact absurd h.1 (txEntriesFor_ne_nil e.tx e.chain e.token a he)
          · rw [if_neg he]
            simp [txEntriesFor_eq_nil e.tx e.chain e.token a he, ih.mp hL]

/-- Pointwise characterisation of a full replay: the record at `a`
after feeding `L` through `update_whale_data` from registry `w`. -/
theorem recordAll_apply (k : Nat) (L : List TransferEvent) (w : Reg) (a : String) :
    recordAll k L w a =
      if entriesFor a L = [] then w a
      else some
        { total_transactions :=
            ((w a).getD emptyRecord).total_transactions + (entriesFor a L).length,
          chains := ((w a).getD emptyRecord).chains ∪ chainsFor a L,
          tokens := ((w a).getD emptyRecord).tokens ∪ tokensFor a L,
          last_active := lastActiveFor a L,
          transactions := pyLastSlice k
            (((w a).getD emptyRecord).transactions ++ entriesFor a L) } := by
  induction L generalizing w with
  | nil => simp [recordAll, entriesFor]
  | cons e L ih =>
      have hstep : recordAll k (e :: L) w =
          recordAll k L (updateWhaleData k e.tx e.chain e.token w) := rfl
      rw [hstep, ih, updateWhaleData_apply]
      by_cases he : e.tx.fromAddr = a ∨ e.tx.toAddr = a
      · rw [if_pos he]
        have htxe := txEntriesFor_ne_nil e.tx e.chain e.token a he
        have hcons : entriesFor a (e :: L) =
            txEntriesFor e.tx e.chain e.token a ++ entriesFor a L := rfl
        by_cases h0 : entriesFor a L = []
        · rw [if_pos h0, if_neg (by rw [hcons, h0]; simpa using htxe)]
          have hch : chainsFor a (e :: L) = {e.chain} := by
            simp [chainsFor, he, chainsFor_of_entriesFor_nil a L h0]
          have htok : tokensFor a (e :: L) = {e.token} := by
            simp [tokensFor, he, tokensFor_of_entriesFor_nil a L h0]
          have hla : lastActiveFor a (e :: L) = some e.tx.timeStamp := by
            simp only [lastActiveFor, (lastActiveFor_eq_none a L).mpr h0]
            rw [if_pos he]
          rw [hcons, h0, hch, htok, hla]
          simp
        · rw [if_neg h0, if_neg (by rw [hcons]; simp [h0])]
          simp only [Option.getD_some]
          obtain ⟨t, ht⟩ : ∃ t, lastActiveFor a L = some t := by
            cases hv : lastActiveFor a L with
            | none => exact absurd ((lastActiveFor_eq_none a L).mp hv) h0
            | some t => exact ⟨t, rfl⟩
          have hla : lastActiveFor a (e :: L) = some t := by
            simp only [lastActiveFor, ht]
          have hch : chainsFor a (e :: L) = {e.chain} ∪ chainsFor a L := by
            simp [chainsFor, he]
          have htok : tokensFor a (e :: L) = {e.token} ∪ tokensFor a L := by
            simp [tokensFor, he]
          rw [hcons, hla, ht, hch, htok]
          simp only [Option.some.injEq, WhaleRecord.mk.injEq]
          refine ⟨?_, ?_, ?_, trivial, ?_⟩
          · simp [Nat.add_assoc]
          · simp [Finset.union_assoc]
          · simp [Finset.union_assoc]
          · rw [pyLastSlice_append, List.append_assoc]
      · rw [if_neg he]
        have htxe := txEntriesFor_eq_nil e.tx e.chain e.token a he
        have hcons : entriesFor a (e :: L) =
            txEntriesFor e.tx e.chain e.token a ++ entriesFor a L := rfl
        have hch : chainsFor a (e :: L) = chainsFor a L := by simp [chainsFor, he]
        have htok : tokensFor a (e :: L) = tokensFor a L := by simp [tokensFor, he]
        have hla : lastActiveFor a (e :: L) = lastActiveFor a L := by
          cases hv : lastActiveFor a L with
          | none => simp only [lastActiveFor, hv]; rw [if_neg he]
          | some t => simp only [lastActiveFor, hv]
        rw [hcons, htxe, List.nil_append, hch, htok, hla]

/-! ## Claims C3, C6, C10 -/

/-- C10: for a qualifying self-transfer (`from == to`) a single
`update_whale_data` call works on one shared record: it increments
`total_transactions` by 2 and appends both the `'send'` and the
`'receive'` entry (in that order, same `tx_hash`) to the one
transactions list, which is then capped by the configured slice. -/
theorem self_transfer_double_count (k : Nat) (tx : TokenTx) (chain token : String)
    (w : Reg) (h : tx.fromAddr = tx.toAddr) :
    updateWhaleData k tx chain token w tx.fromAddr =
      some { total_transactions :=
               ((w tx.fromAddr).getD emptyRecord).total_transactions + 2,
             chains := ((w tx.fromAddr).getD emptyRecord).chains ∪ {chain},
             tokens := ((w tx.fromAddr).getD emptyRecord).tokens ∪ {token},
             last_active := some tx.timeStamp,
             transactions := pyLastSlice k
               (((w tx.fromAddr).getD emptyRecord).transactions ++
                 [sendEntry tx chain token, recvEntry tx chain token]) } := by
  rw [updateWhaleData_apply, if_pos (Or.inl rfl)]
  have htxe : txEntriesFor tx chain token tx.fromAddr =
      [sendEntry tx chain token, recvEntry tx chain token] := by
    simp [txEntriesFor, ← h]
  rw [htxe]
  simp

theorem self_transfer_double_count_witness :
    updateWhaleData 3 ⟨"a", "a", 100, 2, 5, "h"⟩ "c" "t" (fun _ => none) "a" =
      some { total_transactions := 2, chains := {"c"}, tokens := {"t"},
             last_active := some 5,
             transactions := [sendEntry ⟨"a", "a", 100, 2, 5, "h"⟩ "c" "t",
                              recvEntry ⟨"a", "a", 100, 2, 5, "h"⟩ "c" "t"] } := by
  have h := self_transfer_double_count 3 ⟨"a", "a", 100, 2, 5, "h"⟩ "c" "t"
    (fun _ => none) rfl
  simpa [emptyRecord, pyLastSlice] using h

/-- C3 (amended with `max_transactions_per_address ≥ 1`): each
`update_whale_data` call keeps every record's transactions list at
length at most the cap, and the entries it drops relative to the
uncapped list are exactly the oldest prefix (the uncapped list is what
the source computes with cap `0`, since Python's `lst[-0:]` keeps
everything). -/
theorem update_caps_transactions (k : Nat) (hk : 1 ≤ k) (tx : TokenTx)
    (chain token : String) (w : Reg)
    (hw : ∀ a r, w a = some r → r.transactions.length ≤ k) :
    (∀ a r, updateWhaleData k tx chain token w a = some r →
        r.transactions.length ≤ k) ∧
    (∀ a r rFull, updateWhaleData k tx chain token w a = some r →
        updateWhaleData 0 tx chain token w a = some rFull →
        ∃ dropped, rFull.transactions = dropped ++ r.transactions) := by
  constructor
  · intro a r hr
    rw [updateWhaleData_apply] at hr
    by_cases he : tx.fromAddr = a ∨ tx.toAddr = a
    · rw [if_pos he] at hr
      obtain rfl := Option.some.inj hr
      exact pyLastSlice_length_le k hk _
    · rw [if_neg he] at hr
      exact hw a r hr
  · intro a r rFull hr hrF
    rw [updateWhaleData_apply] at hr hrF
    by_cases he : tx.fromAddr = a ∨ tx.toAddr = a
    · rw [if_pos he] at hr hrF
      obtain rfl := Option.some.inj hr
      obtain rfl := Option.some.inj hrF
      rcases pyLastSlice_suffix k
          (((w a).getD emptyRecord).transactions ++ txEntriesFor tx chain token a)
        with hs | hs
      · exact ⟨_, by rw [pyLastSlice_zero]; exact hs.symm⟩
      · exact ⟨[], by rw [pyLastSlice_zero, List.nil_append, hs]⟩
    · rw [if_neg he] at hr hrF
      rw [hr] at hrF
      obtain rfl := Option.some.inj hrF
      exact ⟨[], rfl⟩

theorem update_caps_transactions_witness :
    ({ total_transactions := 1, chains := {"c"}, tokens := {"t"},
       last_active := some 5,
       transactions := [sendEntry ⟨"a", "b", 100, 2, 5, "h"⟩ "c" "t"] } :
        WhaleRecord).transactions.length ≤ 2 :=
  (update_caps_transactions 2 (by decide) ⟨"a", "b", 100, 2, 5, "h"⟩ "c" "t"
      (fun _ => none) (fun _ r h => Option.noConfusion h)).1 "a" _ (by rfl)

/-- C3 counterexample: with `max_transactions_per_address = 0` the
Python slice `lst[-0:]` keeps the whole list, so the claimed bound
`len(transactions) <= max_transactions_per_address` fails. -/
theorem update_caps_transactions_counterexample :
    (updateWhaleData 0 ⟨"a", "b", 100, 2, 5, "h"⟩ "c" "t" (fun _ => none) "a").map
        (fun r => r.transactions.length) = some 1 ∧ ¬ ((1 : Nat) ≤ 0) :=
  ⟨rfl, by decide⟩

/-- The transfer list used in the C6 evaluation theorems. -/
def c6Events : List TransferEvent :=
  [⟨⟨"a", "b", 100, 2, 5, "h"⟩, "c", "t"⟩]

/-- The pre-populated registry used for the C6 counterexample. -/
def c6BaseReg : Reg := fun x =>
  if x = "a" then
    some { total_transactions := 5, chains := ∅, tokens := ∅,
           last_active := none, transactions := [] }
  else none

/-- C6 (amended to start from a registry where the touched address is
absent): replaying the same transfer list twice through
`update_whale_data` doubles the touched address's count while its chain
set, token set, `last_active` and most-recent-transaction content are
identical to one replay. -/
theorem replay_twice_doubles (k : Nat) (L : List TransferEvent) (a : String)
    (w : Reg) (hw : w a = none) (hT : entriesFor a L ≠ []) :
    ∃ r1 r2,
      recordAll k L w a = some r1 ∧
      recordAll k L (recordAll k L w) a = some r2 ∧
      r2.total_transactions = 2 * r1.total_transactions ∧
      r2.chains = r1.chains ∧
      r2.tokens = r1.tokens ∧
      r2.last_active = r1.last_active ∧
      r2.transactions.getLast? = r1.transactions.getLast? ∧
      r1.transactions.getLast?.isSome := by
  have h1 := recordAll_apply k L w a
  rw [if_neg hT, hw] at h1
  have h2 := recordAll_apply k L (recordAll k L w) a
  rw [if_neg hT, h1] at h2
  obtain ⟨x, hx⟩ : ∃ x, (entriesFor a L).getLast? = some x := by
    have := List.getLast?_isSome.mpr hT
    cases hgl : (entriesFor a L).getLast? with
    | none => rw [hgl] at this; exact absurd this (by simp)
    | some y => exact ⟨y, rfl⟩
  refine ⟨_, _, h1, h2, ?_, ?_, ?_, rfl, ?_, ?_⟩
  · simp only [Option.getD_some, Option.getD_none, emptyRecord]
    omega
  · simp [emptyRecord, Finset.union_assoc]
  · simp [emptyRecord, Finset.union_assoc]
  · simp only [Option.getD_some, Option.getD_none, emptyRecord]
    rw [pyLastSlice_getLast?, pyLastSlice_getLast?, List.nil_append,
      List.getLast?_append, hx]
    rfl
  · simp only [Option.getD_some, Option.getD_none, emptyRecord]
    rw [pyLastSlice_getLast?, List.nil_append, hx]
    rfl

theorem replay_twice_doubles_witness :
    ∃ r1 r2,
      recordAll 3 c6Events (fun _ => none) "a" = some r1 ∧
      recordAll 3 c6Events (recordAll 3 c6Events (fun _ => none)) "a" = some r2 ∧
      r2.total_transactions = 2 * r1.total_transactions ∧
      r2.chains = r1.chains ∧
      r2.tokens = r1.tokens ∧
      r2.last_active = r1.last_active ∧
      r2.transactions.getLast? = r1.transactions.getLast? ∧
      r1.transactions.getLast?.isSome :=
  replay_twice_doubles 3 c6Events "a" (fun _ => none) rfl (by decide)

/-- C6 counterexample: from a registry where the touched address already
holds 5 transactions, one replay yields count 6 and two replays yield
count 7, not the doubled 12 — so the claim fails for arbitrary initial
registry states. -/
theorem replay_twice_doubles_counterexample :
    (recordAll 3 c6Events c6BaseReg "a").map
        (fun r => r.total_transactions) = some 6 ∧
    (recordAll 3 c6Events (recordAll 3 c6Events c6BaseReg) "a").map
        (fun r => r.total_transactions) = some 7 ∧
    (7 : Nat) ≠ 2 * 6 :=
  ⟨rfl, rfl, by decide⟩

/-! ## The ERC20 decode and whale classification
(`whale_tracker.py`, `_process_transaction`) -/

/-- A record of the explorer `txlist` endpoint as consumed by
`WhaleTracker._process_transaction`.  `value` is kept as the raw string
the API returns, because the source compares it with `tx['value'] == '0'`
(string equality).  `toAddr` and `input` model `tx.get('to', '')` and
`tx.get('input', '')`. -/
structure ChainTx where
  fromAddr : String
  toAddr : String
  value : String
  input : String
  timeStamp : Nat
  hash : String
deriving DecidableEq

/-- Value of one hexadecimal digit, `none` for any other character. -/
def hexDigitVal? (c : Char) : Option Nat :=
  if '0' ≤ c ∧ c ≤ '9' then some (c.toNat - '0'.toNat)
  else if 'a' ≤ c ∧ c ≤ 'f' then some (c.toNat - 'a'.toNat + 10)
  else if 'A' ≤ c ∧ c ≤ 'F' then some (c.toNat - 'A'.toNat + 10)
  else none

/-- Hex digits after the first one; Python allows single underscores
between digits. -/
def hexTail? : Nat → List Char → Option Nat
  | acc, [] => some acc
  | acc, '_' :: c :: cs =>
      match hexDigitVal? c with
      | some d => hexTail? (acc * 16 + d) cs
      | none => none
  | _, ['_'] => none
  | acc, c :: cs =>
      match hexDigitVal? c with
      | some d => hexTail? (acc * 16 + d) cs
      | none => none

/-- A nonempty run of hex digits (with legal underscores). -/
def hexRun? : List Char → Option Nat
  | [] => none
  | c :: cs =>
      match hexDigitVal? c with
      | some d => hexTail? d cs
      | none => none

/-- The whitespace characters stripped by Python's `int()`. -/
def isPySpace (c : Char) : Bool :=
  c = ' ' || c = '\t' || c = '\n' || c = '\r' || c = '\x0b' || c = '\x0c'

/-- Optional leading sign. -/
def stripSign : List Char → Int × List Char
  | '+' :: rest => (1, rest)
  | '-' :: rest => (-1, rest)
  | l => (1, l)

/-- Optional `0x`/`0X` prefix (Python also allows one underscore right
after the prefix). -/
def stripHexMarker : List Char → List Char
  | '0' :: 'x' :: '_' :: rest => rest
  | '0' :: 'x' :: rest => rest
  | '0' :: 'X' :: '_' :: rest => rest
  | '0' :: 'X' :: rest => rest
  | l => l

/-- Python's `int(s, 16)`: surrounding whitespace, an optional sign, an
optional `0x` prefix, then hex digits with legal underscores; `none`
models the `ValueError` the source catches. -/
def pyIntHex (s : String) : Option Int :=
  let l := s.toList.dropWhile isPySpace
  let l := (l.reverse.dropWhile isPySpace).reverse
  let p := stripSign l
  (hexRun? (stripHexMarker p.2)).map (fun n => p.1 * (n : Int))

/-- `tx['input'][-64:]`: the last 64 characters of the call data. -/
def last64 (s : String) : String :=
  ⟨(s.toList.reverse.take 64).reverse⟩

/-- `6 if token_name in ['USDT', 'USDC'] else 18`. -/
def erc20Decimals (tokenName : String) : Nat :=
  if tokenName = "USDT" ∨ tokenName = "USDC" then 6 else 18

/-- The value-decoding step of `_process_transaction`: for a record with
string-`'0'` `value` and call data of length at least 138, parse the
trailing 32-byte word as hex and scale by the token's decimal count;
everything else (including a parse failure, which the source catches and
turns into a skip) yields `none`.  Total and pure by construction. -/
def decodeErc20Value (tx : ChainTx) (tokenName : String) : Option ℚ :=
  if tx.value = "0" ∧ 138 ≤ tx.input.length then
    match pyIntHex (last64 tx.input) with
    | some v => some ((v : ℚ) / 10 ^ erc20Decimals tokenName)
    | none => none
  else none

/-- Python's `str.lower()` on the ASCII strings handled here (token
names and hex contract addresses). -/
def pyLower (s : String) : String := ⟨s.data.map Char.toLower⟩

/-- Python's `str.upper()` on the ASCII strings handled here. -/
def pyUpper (s : String) : String := ⟨s.data.map Char.toUpper⟩

/-- The whale-tracker configuration slice used by
`_process_transaction`: the alert threshold and the token table
`token_name -> (chain -> contract address)` (the source indexes
`token_data[chain]`, assuming the key is present). -/
structure WhaleConfig where
  whale_alert_threshold : ℚ
  tokens : List (String × (String → String))

/-- `{token_name.lower(): token_data[chain].lower() for ...}`. -/
def tokenAddressesFor (cfg : WhaleConfig) (chain : String) : List (String × String) :=
  cfg.tokens.map (fun p => (pyLower p.1, pyLower (p.2 chain)))

/-- `next((name for name, addr in ... if addr == contract_address),
'Unknown').upper()`. -/
def resolvedTokenName (cfg : WhaleConfig) (chain : String) (tx : ChainTx) : String :=
  pyUpper ((((tokenAddressesFor cfg chain).find?
      (fun p => p.2 = pyLower tx.toAddr)).map Prod.fst).getD "Unknown")

/-- The structured content of the whale-alert log line. -/
structure WhaleAlert where
  whaleLabel : String
  token : String
  chain : String
  sender : String
  receiver : String
  amount : ℚ
  txHash : String
  timeStamp : Nat
deriving DecidableEq

/-- `_process_transaction(tx, chain, whale_info)`: skip records whose
`to` is not a tracked token contract, decode the ERC20 value, and emit
the whale alert exactly when the decoded value exceeds
`whale_alert_threshold`. -/
def processTransaction (cfg : WhaleConfig) (chain whaleLabel : String)
    (tx : ChainTx) : Option WhaleAlert :=
  if pyLower tx.toAddr ∈ ((tokenAddressesFor cfg chain).map Prod.snd) then
    match decodeErc20Value tx (resolvedTokenName cfg chain tx) with
    | some value =>
        if cfg.whale_alert_threshold < value then
          some { whaleLabel := whaleLabel, token := resolvedTokenName cfg chain tx,
                 chain := chain, sender := tx.fromAddr, receiver := tx.toAddr,
                 amount := value, txHash := tx.hash, timeStamp := tx.timeStamp }
        else none
    | none => none
  else none

/-! ## Claims C4, C5, C1, C9 -/

/-- C4 (amended: the `value` field is the literal string `'0'`, which is
what `tx['value'] == '0'` tests): for a record with a long-enough call
data whose trailing 32-byte word parses as hex, the decoder returns that
word scaled by the token's decimal precision. -/
theorem decode_scales_trailing_word (tx : ChainTx) (tokenName : String) (amount : Int)
    (hv : tx.value = "0") (hl : 138 ≤ tx.input.length)
    (hp : pyIntHex (last64 tx.input) = some amount) :
    decodeErc20Value tx tokenName =
      some ((amount : ℚ) / 10 ^ erc20Decimals tokenName) := by
  unfold decodeErc20Value
  rw [if_pos ⟨hv, hl⟩, hp]

/-- The synthetic ERC20 `transfer` call: `0x` + 8-char method id + 64-char
recipient word + 64-char amount word encoding `1_000_000 * 10^6`. -/
def c4DemoTx : ChainTx :=
  { fromAddr := "0xsender", toAddr := "0xtoken", value := "0",
    input := "0xa9059cbb0000000000000000000000000000000000000000000000000000000000000000000000000000000000000000000000000000000000000000000000e8d4a51000",
    timeStamp := 7, hash := "0xhash" }

theorem decode_scales_trailing_word_witness :
    decodeErc20Value c4DemoTx "USDT" = some ((1000000000000 : ℚ) / 10 ^ 6) ∧
    ((1000000000000 : ℚ) / 10 ^ 6) = 1000000 := by
  constructor
  · have h := decode_scales_trailing_word c4DemoTx "USDT" 1000000000000 rfl
      (by decide) (by decide)
    rw [h]
    norm_num [erc20Decimals]
  · norm_num

/-- C4 counterexample: the source compares the `value` field with the
string `'0'`, so a record whose `value` is `"00"` — numerically zero —
is not decoded at all, while the same record with `value = "0"` is. -/
theorem decode_scales_trailing_word_counterexample :
    decodeErc20Value { c4DemoTx with value := "00" } "USDT" = none ∧
    (decodeErc20Value c4DemoTx "USDT").isSome := by
  constructor
  · decide
  · decide

/-- C5: a record that is not a recognised ERC20 transfer shape — `value`
differing from `'0'`, call data shorter than 138 characters, or a
trailing word that fails to parse as hex — decodes to `none`; the
decoder is a total pure function, so no error propagates. -/
theorem decode_skips_unrecognized (tx : ChainTx) (tokenName : String)
    (h : tx.value ≠ "0" ∨ tx.input.length < 138 ∨
      pyIntHex (last64 tx.input) = none) :
    decodeErc20Value tx tokenName = none := by
  unfold decodeErc20Value
  rcases h with h | h | h
  · rw [if_neg (fun hc => h hc.1)]
  · rw [if_neg (fun hc => absurd hc.2 (by omega))]
  · by_cases hc : tx.value = "0" ∧ 138 ≤ tx.input.length
    · rw [if_pos hc, h]
    · rw [if_neg hc]

theorem decode_skips_unrecognized_witness :
    decodeErc20Value ⟨"a", "b", "5", "", 0, "h"⟩ "USDT" = none :=
  decode_skips_unrecognized ⟨"a", "b", "5", "", 0, "h"⟩ "USDT" (Or.inl (by decide))

/-- `[tx for tx in all_transactions if float(tx['value']) / (10 **
int(tx['tokenDecimal'])) > LARGE_TX_THRESHOLD]`. -/
def largeTxFilter (threshold : ℚ) (txs : List TokenTx) : List TokenTx :=
  txs.filter (fun t => decide (threshold < tokenTxAmount t))

/-- C1: the large-transaction filter keeps a transfer iff its scaled
amount strictly exceeds the threshold, and — given that a record's `to`
is a tracked contract and it decodes to amount `v` — the whale scanner
emits an alert iff `v` strictly exceeds the alert threshold; neither
test depends on the chain or the token beyond the decoded amount. -/
theorem large_iff_strictly_above_threshold :
    (∀ (threshold : ℚ) (txs : List TokenTx) (tx : TokenTx),
        tx ∈ largeTxFilter threshold txs ↔
          tx ∈ txs ∧ threshold < tokenTxAmount tx) ∧
    (∀ (cfg : WhaleConfig) (chain label : String) (tx : ChainTx) (v : ℚ),
        pyLower tx.toAddr ∈ ((tokenAddressesFor cfg chain).map Prod.snd) →
        decodeErc20Value tx (resolvedTokenName cfg chain tx) = some v →
        ((processTransaction cfg chain label tx).isSome ↔
          cfg.whale_alert_threshold < v)) := by
  constructor
  · intro threshold txs tx
    simp [largeTxFilter, List.mem_filter]
  · intro cfg chain label tx v hmem hdec
    unfold processTransaction
    rw [if_pos hmem, hdec]
    by_cases hv : cfg.whale_alert_threshold < v
    · simp [hv]
    · simp [hv]

/-- The configuration used in the C1 witness. -/
def c1Cfg : WhaleConfig :=
  { whale_alert_threshold := 999999, tokens := [("usdt", fun _ => "0xAAA")] }

/-- The C1 witness record: `c4DemoTx` sent to the tracked contract. -/
def c1DemoTx : ChainTx := { c4DemoTx with toAddr := "0xaaa" }

theorem large_iff_strictly_above_threshold_witness :
    (processTransaction c1Cfg "ethereum" "w" c1DemoTx).isSome := by
  have hname : resolvedTokenName c1Cfg "ethereum" c1DemoTx = "USDT" := by decide
  refine (large_iff_strictly_above_threshold.2 c1Cfg "ethereum" "w" c1DemoTx
      (((1000000000000 : Int) : ℚ) /
        10 ^ erc20Decimals (resolvedTokenName c1Cfg "ethereum" c1DemoTx))
      (by decide) rfl).mpr ?_
  rw [hname]
  norm_num [c1Cfg, erc20Decimals]

/-- `large_txs.sort(key=..., reverse=True)`: descending scaled amount. -/
def amountGE (a b : TokenTx) : Prop := tokenTxAmount b ≤ tokenTxAmount a

instance : DecidableRel amountGE :=
  fun a b => inferInstanceAs (Decidable (tokenTxAmount b ≤ tokenTxAmount a))

instance : IsTotal TokenTx amountGE :=
  ⟨fun a b => le_total (tokenTxAmount b) (tokenTxAmount a)⟩

instance : IsTrans TokenTx amountGE :=
  ⟨fun _ _ _ h1 h2 => le_trans h2 h1⟩

/-- The pure tail of `get_large_transactions`: filter the fetched list
to amounts strictly above the threshold, sort descending by scaled
amount, keep the top 10.  (The paginated fetch is abstracted to the
input list; the source's `except` path returns `[]`, which satisfies
every property below vacuously.) -/
def getLargeTransactions (threshold : ℚ) (all : List TokenTx) : List TokenTx :=
  (List.insertionSort amountGE (largeTxFilter threshold all)).take 10

/-- C9: every returned transaction's scaled amount strictly exceeds the
threshold, the result is sorted in descending order of scaled amount,
and at most 10 transactions are returned. -/
theorem large_scan_top10 (threshold : ℚ) (all : List TokenTx) :
    (∀ tx ∈ getLargeTransactions threshold all, threshold < tokenTxAmount tx) ∧
    List.Sorted amountGE (getLargeTransactions threshold all) ∧
    (getLargeTransactions threshold all).length ≤ 10 := by
  refine ⟨?_, ?_, ?_⟩
  · intro tx htx
    have h1 : tx ∈ List.insertionSort amountGE (largeTxFilter threshold all) :=
      List.mem_of_mem_take htx
    rw [List.mem_insertionSort] at h1
    have h2 := List.mem_filter.mp h1
    simpa using h2.2
  · exact (List.sorted_insertionSort amountGE _).sublist (List.take_sublist _ _)
  · exact List.length_take_le 10 _

theorem large_scan_top10_witness :
    (1 : ℚ) < tokenTxAmount ⟨"a", "b", 300, 0, 1, "h1"⟩ ∧
    (getLargeTransactions 1 [⟨"a", "b", 300, 0, 1, "h1"⟩]).length ≤ 10 := by
  have hamt : (1 : ℚ) < tokenTxAmount ⟨"a", "b", 300, 0, 1, "h1"⟩ := by
    norm_num [tokenTxAmount]
  have hfil : largeTxFilter 1 [⟨"a", "b", 300, 0, 1, "h1"⟩] =
      [⟨"a", "b", 300, 0, 1, "h1"⟩] := by
    simp [largeTxFilter, hamt]
  have hall : getLargeTransactions 1 [⟨"a", "b", 300, 0, 1, "h1"⟩] =
      [⟨"a", "b", 300, 0, 1, "h1"⟩] := by
    simp [getLargeTransactions, hfil, List.insertionSort, List.orderedInsert]
  refine ⟨(large_scan_top10 1 [⟨"a", "b", 300, 0, 1, "h1"⟩]).1 _ ?_,
    (large_scan_top10 1 [⟨"a", "b", 300, 0, 1, "h1"⟩]).2.2⟩
  rw [hall]
  exact List.mem_singleton_self _

/-! ## The per-chain block cursor
(`whale_tracker.py`, `check_whale_transactions`) -/

/-- What one `check_whale_transactions` pass observes for one chain:
the height reported by `_get_current_block` (`none` on failure) and
whether any whale addresses are registered for the chain. -/
structure ScanPass where
  currentBlock : Option Int
  hasWhales : Bool
deriving DecidableEq

/-- The evolution of `self.last_checked_block[chain]` over one pass of
`check_whale_transactions`, following the source's order: a failed
height fetch skips the chain; a `None` cursor is first initialised to
`current_block - 1000`; with no registered addresses the chain is
skipped after that initialisation; otherwise, after the address loop
(whose per-address failures return `[]` and cannot abort the pass), the
cursor is set to the height observed at the start of the pass. -/
def cursorAfterPass (cursor : Option Int) (p : ScanPass) : Option Int :=
  match p.currentBlock with
  | none => cursor
  | some cb =>
      let c := match cursor with
        | none => some (cb - 1000)
        | some v => some v
      if p.hasWhales then some cb else c

/-- Iterating passes for one chain. -/
def cursorAfterPasses (cursor : Option Int) (ps : List ScanPass) : Option Int :=
  ps.foldl cursorAfterPass cursor

/-- C2 (amended): as long as every successfully fetched height is at
least the chain's current cursor value `v`, any sequence of passes
leaves the cursor defined and no smaller than `v`.  (The source never
clamps: a pass observing a lower height moves the cursor backwards —
see the counterexample.) -/
theorem cursor_monotone_of_heights_ge (v u : Int) (ps : List ScanPass)
    (hu : v ≤ u)
    (h : ∀ p ∈ ps, ∀ cb, p.currentBlock = some cb → v ≤ cb) :
    ∃ v', cursorAfterPasses (some u) ps = some v' ∧ v ≤ v' := by
  induction ps generalizing u with
  | nil => exact ⟨u, rfl, hu⟩
  | cons p ps ih =>
      have hmem : ∀ q ∈ ps, ∀ cb, q.currentBlock = some cb → v ≤ cb :=
        fun q hq => h q (List.mem_cons_of_mem p hq)
      have hfold : cursorAfterPasses (some u) (p :: ps) =
          cursorAfterPasses (cursorAfterPass (some u) p) ps := rfl
      cases hcb : p.currentBlock with
      | none =>
          have hstep : cursorAfterPass (some u) p = some u := by
            simp [cursorAfterPass, hcb]
          rw [hfold, hstep]
          exact ih u hu hmem
      | some cb =>
          by_cases hw : p.hasWhales
          · have hstep : cursorAfterPass (some u) p = some cb := by
              simp [cursorAfterPass, hcb, hw]
            rw [hfold, hstep]
            exact ih cb (h p (List.mem_cons_self p ps) cb hcb) hmem
          · have hstep : cursorAfterPass (some u) p = some u := by
              simp [cursorAfterPass, hcb, hw]
            rw [hfold, hstep]
            exact ih u hu hmem

theorem cursor_monotone_witness :
    ∃ v', cursorAfterPasses (some 5) [⟨some 7, true⟩] = some v' ∧ (5 : Int) ≤ v' :=
  cursor_monotone_of_heights_ge 5 5 [⟨some 7, true⟩] (le_refl 5)
    (by
      intro p hp cb hcb
      rw [List.mem_singleton] at hp
      subst hp
      simp only [] at hcb
      injection hcb with hcb
      omega)

/-- C2 counterexample: nothing clamps the cursor, so a pass whose
fetched height (1500) is below the stored cursor (2000) — as happens
when the explorer's reported head regresses — moves the cursor
backwards, refuting unconditional monotonicity. -/
theorem cursor_monotone_counterexample :
    cursorAfterPass (some 2000) ⟨some 1500, true⟩ = some 1500 ∧
    ¬ ((2000 : Int) ≤ 1500) :=
  ⟨rfl, by decide⟩

/-! ## Snapshot export (`stablecoin_tracker.py`,
`export_whale_summary_to_csv`) -/

/-- One exported row: address, total transactions, chain and token sets
(which the source joins with `', '` in unspecified set order), last
active, total volume, average transaction size. -/
structure SummaryRow where
  address : String
  total_transactions : Nat
  active_chains : Finset String
  tokens_traded : Finset String
  last_active : Option Nat
  total_volume : ℚ
  average_transaction_size : ℚ
deriving DecidableEq

/-- The row built for one address: `total_volume = sum(tx['amount'] for
tx in transactions)`, `avg_tx_size = total_volume / len(transactions)
if transactions else 0`. -/
def summaryRow (a : String) (r : WhaleRecord) : SummaryRow :=
  { address := a,
    total_transactions := r.total_transactions,
    active_chains := r.chains,
    tokens_traded := r.tokens,
    last_active := r.last_active,
    total_volume := (r.transactions.map TxEntry.amount).sum,
    average_transaction_size :=
      if r.transactions.isEmpty then 0
      else (r.transactions.map TxEntry.amount).sum / r.transactions.length }

/-- `df.sort_values('Total Volume (USD)', ascending=False)`: descending
total volume. -/
def volumeGE (x y : SummaryRow) : Prop := y.total_volume ≤ x.total_volume

instance : DecidableRel volumeGE :=
  fun x y => inferInstanceAs (Decidable (y.total_volume ≤ x.total_volume))

instance : IsTotal SummaryRow volumeGE :=
  ⟨fun a b => le_total b.total_volume a.total_volume⟩

instance : IsTrans SummaryRow volumeGE :=
  ⟨fun _ _ _ h1 h2 => le_trans h2 h1⟩

/-- `export_whale_summary_to_csv`: `None` for an empty registry,
otherwise one row per address sorted descending by total volume.  The
registry dict is taken in its insertion order as an association list;
pandas' unstable quicksort and this insertion sort agree up to the
ordering of ties, which the source leaves unspecified. -/
def exportWhaleSummary (reg : List (String × WhaleRecord)) : Option (List SummaryRow) :=
  if reg.isEmpty then none
  else some (List.insertionSort volumeGE (reg.map (fun p => summaryRow p.1 p.2)))

/-- A single-transaction entry of the given amount. -/
def c7Entry (x : ℚ) : TxEntry :=
  { entryType := "send", token := "t", chain := "c", amount := x,
    timestamp := 1, txHash := "h" }

/-- A record whose retained window holds one transfer of amount `x`. -/
def c7Rec (x : ℚ) : WhaleRecord :=
  { total_transactions := 1, chains := {"c"}, tokens := {"t"},
    last_active := some 1, transactions := [c7Entry x] }

/-- A registry whose per-address volumes are `[300, 100, 200]`. -/
def c7DemoReg : List (String × WhaleRecord) :=
  [("a1", c7Rec 300), ("a2", c7Rec 100), ("a3", c7Rec 200)]

/-- C7: a non-empty registry exports rows sorted descending by total
volume; in particular volumes `[300, 100, 200]` export as
`[300, 200, 100]`. -/
theorem export_sorted_by_volume :
    (∀ reg : List (String × WhaleRecord), reg ≠ [] →
      ∃ rows, exportWhaleSummary reg = some rows ∧ List.Sorted volumeGE rows) ∧
    (exportWhaleSummary c7DemoReg).map (fun rows => rows.map SummaryRow.total_volume) =
      some [300, 200, 100] := by
  constructor
  · intro reg hreg
    refine ⟨List.insertionSort volumeGE (reg.map (fun p => summaryRow p.1 p.2)), ?_, ?_⟩
    · unfold exportWhaleSummary
      rw [if_neg (by simpa using hreg)]
    · exact List.sorted_insertionSort volumeGE _
  · have hv1 : ¬ volumeGE (summaryRow "a2" (c7Rec 100)) (summaryRow "a3" (c7Rec 200)) := by
      simp [volumeGE, summaryRow, c7Rec, c7Entry]
      norm_num
    have hv2 : volumeGE (summaryRow "a1" (c7Rec 300)) (summaryRow "a3" (c7Rec 200)) := by
      simp [volumeGE, summaryRow, c7Rec, c7Entry]
      norm_num
    have hsort : exportWhaleSummary c7DemoReg =
        some [summaryRow "a1" (c7Rec 300), summaryRow "a3" (c7Rec 200),
              summaryRow "a2" (c7Rec 100)] := by
      unfold exportWhaleSummary c7DemoReg
      rw [if_neg (by simp)]
      simp [List.insertionSort, List.orderedInsert, hv1, hv2]
    rw [hsort]
    simp [summaryRow, c7Rec, c7Entry]

theorem export_sorted_by_volume_witness :
    ∃ rows, exportWhaleSummary c7DemoReg = some rows ∧ List.Sorted volumeGE rows :=
  export_sorted_by_volume.1 c7DemoReg (by simp [c7DemoReg])

/-! ## Supply fetch (`stablecoin_tracker.py`, `get_supply_from_defillama`) -/

/-- One entry of the index's `peggedAssets` list; `circulating` is
`none` when `circulating.peggedUSD` is missing or non-numeric, in which
case the source's `float(...)` raises and the handler returns 0. -/
structure PeggedAsset where
  name : String
  symbol : String
  circulating : Option ℚ
deriving DecidableEq

/-- `stablecoin['name'] == token_info['defillama_id'] or
stablecoin['symbol'] == token_info['defillama_id']`. -/
def assetMatches (defillamaId : String) (a : PeggedAsset) : Bool :=
  a.name == defillamaId || a.symbol == defillamaId

/-- `get_supply_from_defillama(token_info)` with the HTTP response
abstracted to its parsed payload (`none` models any network or JSON
failure, which the handler degrades to 0): return the first matching
asset's circulating supply, 0 when nothing matches or the matched
asset's supply field is unusable. -/
def getSupplyFromDefillama (resp : Option (List PeggedAsset))
    (defillamaId : String) : ℚ :=
  match resp with
  | none => 0
  | some assets =>
      match assets.find? (assetMatches defillamaId) with
      | some a => a.circulating.getD 0
      | none => 0

/-- C8: the supply fetch returns the first matched asset's circulating
amount, and degrades to 0 — never an error — on a failed fetch, on no
match, and (via `getD`) on a matched asset with an unusable supply
field. -/
theorem supply_fetch_matches_or_zero :
    (∀ defillamaId, getSupplyFromDefillama none defillamaId = 0) ∧
    (∀ assets defillamaId, (∀ a ∈ assets, assetMatches defillamaId a = false) →
        getSupplyFromDefillama (some assets) defillamaId = 0) ∧
    (∀ assets defillamaId a v,
        assets.find? (assetMatches defillamaId) = some a →
        a.circulating = some v →
        getSupplyFromDefillama (some assets) defillamaId = v) := by
  refine ⟨fun _ => rfl, ?_, ?_⟩
  · intro assets defillamaId h
    have hnone : List.find? (assetMatches defillamaId) assets = none :=
      List.find?_eq_none.mpr (by simpa using h)
    simp [getSupplyFromDefillama, hnone]
  · intro assets defillamaId a v hf hv
    simp [getSupplyFromDefillama, hf, hv]

theorem supply_fetch_matches_or_zero_witness :
    getSupplyFromDefillama (some [⟨"Tether", "USDT", some 120⟩]) "USDT" = 120 :=
  supply_fetch_matches_or_zero.2.2 [⟨"Tether", "USDT", some 120⟩] "USDT"
    ⟨"Tether", "USDT", some 120⟩ 120 (by rfl) rfl
